import Mathlib

/-
Shallow embedding of the cached enforcer (enforcer_cached.go) of the casbin
repository: a decision cache placed in front of an authorization decision
engine.  Pure Go functions become Lean functions; the mutable enforcer state
(the shard array of cache backends) is passed explicitly; Go errors become
Option GoErr values.  Shard locks are not modelled: each operation is a single
sequential state transformation.  Engine invocations and cache reads/writes are
counted in the returned result records so that frame properties are stateable.
-/

/- The fixed shard count, var shardPartitions = 32 in the source. -/
def shardPartitions : Nat := 32

/- Go error values as they are distinguished by the source: the distinguished
cache.ErrNoSuchKey sentinel versus any other error. -/
inductive GoErr where
  | noSuchKey
  | other (msg : String)
deriving DecidableEq

/- A variadic interface parameter as the source distinguishes them in getKey:
a raw string, a value implementing CacheableParam (represented by the string
its GetCacheKey method returns), or any other value (the default case,
covering nil interface entries as well). -/
inductive Param where
  | str (s : String)
  | cacheable (cacheKey : String)
  | other
deriving DecidableEq

/- Whether getKey can use the parameter (not the default case). -/
def keyable : Param → Bool
  | Param.other => false
  | _ => true

/- The string appended for a keyable parameter: the raw string itself, or the
GetCacheKey result. -/
def stringForm : Param → String
  | Param.str s => s
  | Param.cacheable ck => ck
  | Param.other => ""

/- getKey of enforcer_cached.go: iterate the parameters, appending the string
form followed by the separator for each; on any other parameter type return
the empty string and false immediately.  The strings.Builder accumulator is
the first argument. -/
def getKeyAux : String → List Param → String × Bool
  | acc, [] => (acc, true)
  | acc, Param.str s :: rest => getKeyAux (acc ++ s ++ "$$") rest
  | acc, Param.cacheable ck :: rest => getKeyAux (acc ++ ck ++ "$$") rest
  | _, Param.other :: _ => ("", false)

def getKey (params : List Param) : String × Bool :=
  getKeyAux "" params

/- The key a fully keyable parameter list produces, written as the spec
describes it: each parameter's string form followed by the two-character
separator, concatenated in order. -/
def keyCat : List Param → String
  | [] => ""
  | p :: ps => stringForm p ++ "$$" ++ keyCat ps

/- UTF-8 encoding of a unicode code point, byte values as Nat.  Go's
[]byte(s) conversion in getShardIdx hashes the UTF-8 bytes of the key. -/
def utf8Bytes (c : Nat) : List Nat :=
  if c < 128 then [c]
  else if c < 2048 then
    [192 + c / 64, 128 + c % 64]
  else if c < 65536 then
    [224 + c / 4096, 128 + c / 64 % 64, 128 + c % 64]
  else
    [240 + c / 262144, 128 + c / 4096 % 64, 128 + c / 64 % 64, 128 + c % 64]

def strBytes (s : String) : List Nat :=
  (s.data.map (fun c => utf8Bytes c.toNat)).flatten

/- 32-bit FNV-1a over a byte sequence, as hash/fnv's New32a computes it:
h starts at the offset basis; each byte is xored in and the result is
multiplied by the FNV prime, modulo 2^32. -/
def fnv32a (bytes : List Nat) : Nat :=
  bytes.foldl (fun h b => (Nat.xor h b) * 16777619 % 4294967296) 2166136261

/- getShardIdx of enforcer_cached.go.  The Write error branch of the Go code
(returning 0) is dead: fnv's Write never fails, so it is not modelled. -/
def getShardIdx (s : String) : Nat :=
  fnv32a (strBytes s) % shardPartitions

/- The pluggable cache backend capability over a backend state type:
Get returns a value and an error slot, Set/Delete/Clear return an error slot
and the updated backend state. -/
structure CacheOps (σ : Type) where
  get : σ → String → Bool × Option GoErr
  set : σ → String → Bool → Nat → Option GoErr × σ
  delete : σ → String → Option GoErr × σ
  clear : σ → Option GoErr × σ

/- Modelled from the spec: the decision engine capability (the wrapped
Enforcer, whose implementation lives outside enforcer_cached.go).  Each
operation is an opaque deterministic outcome; determinism models the absence
of intervening policy mutation. -/
structure Enforcer where
  enforce : List Param → Bool × Option GoErr
  loadPolicy : Option GoErr
  removePolicy : List Param → Bool × Option GoErr
  removePolicies : List (List String) → Bool × Option GoErr

/- CachedEnforcer of enforcer_cached.go: the embedded Enforcer, the expire
time, the backend operations, one backend state per shard index, and the
atomic enableCache word (an int32 in Go; the code only ever tests it against
zero and stores zero or one). -/
structure CachedEnforcer (σ : Type) where
  enforcer : Enforcer
  expireTime : Nat
  ops : CacheOps σ
  cache : Nat → σ
  enableCache : Nat

def setShard {σ : Type} (e : CachedEnforcer σ) (i : Nat) (s : σ) :
    CachedEnforcer σ :=
  { e with cache := fun j => if j = i then s else e.cache j }

/- getCachedResult: route the key to its shard and query that backend. -/
def CachedEnforcer.getCachedResult {σ : Type} (e : CachedEnforcer σ)
    (key : String) : Bool × Option GoErr :=
  e.ops.get (e.cache (getShardIdx key)) key

/- setCachedResult: route the key to its shard and store through that
backend, passing the configured expire time. -/
def CachedEnforcer.setCachedResult {σ : Type} (e : CachedEnforcer σ)
    (key : String) (res : Bool) : Option GoErr × CachedEnforcer σ :=
  (((e.ops.set (e.cache (getShardIdx key)) key res e.expireTime)).1,
   setShard e (getShardIdx key) (e.ops.set (e.cache (getShardIdx key)) key res e.expireTime).2)

/- The outcome of one Enforce call: returned boolean and error, the enforcer
state afterwards, and instrumentation counting invocations of the wrapped
engine's Enforce and of the backend's Get and Set. -/
structure EnforceResult (σ : Type) where
  res : Bool
  err : Option GoErr
  state : CachedEnforcer σ
  engineCalls : Nat
  cacheGets : Nat
  cacheSets : Nat

/- Enforce of enforcer_cached.go.  Disabled or key-not-applicable calls
delegate directly; otherwise the cache is consulted: a nil error is a hit, an
error other than ErrNoSuchKey is returned as is, and ErrNoSuchKey leads to
evaluation followed by a Set whose error is returned alongside the result. -/
def CachedEnforcer.Enforce {σ : Type} (e : CachedEnforcer σ)
    (rvals : List Param) : EnforceResult σ :=
  if e.enableCache = 0 then
    ⟨(e.enforcer.enforce rvals).1, (e.enforcer.enforce rvals).2, e, 1, 0, 0⟩
  else if (getKey rvals).2 = false then
    ⟨(e.enforcer.enforce rvals).1, (e.enforcer.enforce rvals).2, e, 1, 0, 0⟩
  else
    match (e.getCachedResult (getKey rvals).1).2 with
    | none => ⟨(e.getCachedResult (getKey rvals).1).1, none, e, 0, 1, 0⟩
    | some er =>
      if er = GoErr.noSuchKey then
        match (e.enforcer.enforce rvals).2 with
        | some er2 => ⟨false, some er2, e, 1, 1, 0⟩
        | none =>
          ⟨(e.enforcer.enforce rvals).1,
           (e.setCachedResult (getKey rvals).1 (e.enforcer.enforce rvals).1).1,
           (e.setCachedResult (getKey rvals).1 (e.enforcer.enforce rvals).1).2,
           1, 1, 1⟩
      else ⟨(e.getCachedResult (getKey rvals).1).1, some er, e, 0, 1, 0⟩

/- The shard-clearing loop shared by LoadPolicy and InvalidateCache: clear
shards i, i+1, ... for n iterations, stopping at the first error.  The fuel
argument n is the number of remaining iterations. -/
def CachedEnforcer.clearRange {σ : Type} :
    CachedEnforcer σ → Nat → Nat → Option GoErr × CachedEnforcer σ
  | e, _, 0 => (none, e)
  | e, i, Nat.succ n =>
    match (e.ops.clear (e.cache i)).1 with
    | some er => (some er, setShard e i (e.ops.clear (e.cache i)).2)
    | none => (setShard e i (e.ops.clear (e.cache i)).2).clearRange (i + 1) n

/- The outcome of a LoadPolicy call: returned error, state afterwards, and
the number of invocations of the wrapped engine's LoadPolicy. -/
structure OpResult (σ : Type) where
  err : Option GoErr
  state : CachedEnforcer σ
  engineCalls : Nat

/- LoadPolicy of enforcer_cached.go: when caching is enabled, clear every
shard in ascending order, returning the first Clear error without reloading;
otherwise delegate to the wrapped engine. -/
def CachedEnforcer.LoadPolicy {σ : Type} (e : CachedEnforcer σ) : OpResult σ :=
  if e.enableCache ≠ 0 then
    match (e.clearRange 0 shardPartitions).1 with
    | some er => ⟨some er, (e.clearRange 0 shardPartitions).2, 0⟩
    | none =>
      ⟨(e.clearRange 0 shardPartitions).2.enforcer.loadPolicy,
       (e.clearRange 0 shardPartitions).2, 1⟩
  else ⟨e.enforcer.loadPolicy, e, 1⟩

/- InvalidateCache of enforcer_cached.go: the same clearing loop over every
shard (no enableCache test in the source). -/
def CachedEnforcer.InvalidateCache {σ : Type} (e : CachedEnforcer σ) :
    Option GoErr × CachedEnforcer σ :=
  e.clearRange 0 shardPartitions

/- The outcome of a RemovePolicy call. -/
structure RemoveResult (σ : Type) where
  res : Bool
  err : Option GoErr
  state : CachedEnforcer σ
  engineCalls : Nat

/- RemovePolicy of enforcer_cached.go: when caching is enabled and the key is
applicable, delete the key from its shard, returning (false, err) on a delete
error other than ErrNoSuchKey; in every other case delegate to the wrapped
engine. -/
def CachedEnforcer.RemovePolicy {σ : Type} (e : CachedEnforcer σ)
    (params : List Param) : RemoveResult σ :=
  if e.enableCache ≠ 0 then
    if (getKey params).2 = true then
      match (e.ops.delete (e.cache (getShardIdx (getKey params).1)) (getKey params).1).1 with
      | some er =>
        if er = GoErr.noSuchKey then
          ⟨(e.enforcer.removePolicy params).1, (e.enforcer.removePolicy params).2,
           setShard e (getShardIdx (getKey params).1)
             (e.ops.delete (e.cache (getShardIdx (getKey params).1)) (getKey params).1).2, 1⟩
        else
          ⟨false, some er,
           setShard e (getShardIdx (getKey params).1)
             (e.ops.delete (e.cache (getShardIdx (getKey params).1)) (getKey params).1).2, 0⟩
      | none =>
        ⟨(e.enforcer.removePolicy params).1, (e.enforcer.removePolicy params).2,
         setShard e (getShardIdx (getKey params).1)
           (e.ops.delete (e.cache (getShardIdx (getKey params).1)) (getKey params).1).2, 1⟩
    else
      ⟨(e.enforcer.removePolicy params).1, (e.enforcer.removePolicy params).2, e, 1⟩
  else
    ⟨(e.enforcer.removePolicy params).1, (e.enforcer.removePolicy params).2, e, 1⟩

/- Writing one slot of the fixed-size irule buffer of RemovePolicies.
irule[i] = param panics with an index-out-of-range runtime error when i is
not below the buffer's length; the panic is modelled as none. -/
def writeBuf (buf : List Param) (i : Nat) (p : Param) : Option (List Param) :=
  if i < buf.length then some (buf.set i p) else none

/- The inner loop of RemovePolicies: for i, param := range rule, writing each
parameter of the rule into the buffer at successive indices starting at i. -/
def fillBuf : List Param → Nat → List String → Option (List Param)
  | buf, _, [] => some buf
  | buf, i, s :: rest =>
    match writeBuf buf i (Param.str s) with
    | none => none
    | some buf2 => fillBuf buf2 (i + 1) rest

/- The outcome of the per-rule loop of RemovePolicies: an out-of-range panic,
an early return with a delete error, or completion; the keys passed to Delete
are recorded in order. -/
inductive RPOut (σ : Type) where
  | panicked
  | earlyErr (er : GoErr) (e : CachedEnforcer σ) (deleted : List String)
  | done (e : CachedEnforcer σ) (deleted : List String)

/- The per-rule loop of RemovePolicies: overwrite the buffer prefix with the
rule's parameters, build the key from the whole buffer (the key's ok flag is
discarded by the source), delete it from its shard, and return early on a
delete error other than ErrNoSuchKey. -/
def CachedEnforcer.removePoliciesLoop {σ : Type} :
    CachedEnforcer σ → List Param → List String → List (List String) → RPOut σ
  | e, _, deleted, [] => RPOut.done e deleted
  | e, buf, deleted, rule :: rest =>
    match fillBuf buf 0 rule with
    | none => RPOut.panicked
    | some buf2 =>
      match (e.ops.delete (e.cache (getShardIdx (getKey buf2).1)) (getKey buf2).1).1 with
      | some er =>
        if er = GoErr.noSuchKey then
          (setShard e (getShardIdx (getKey buf2).1)
            (e.ops.delete (e.cache (getShardIdx (getKey buf2).1)) (getKey buf2).1).2).removePoliciesLoop
            buf2 (deleted ++ [(getKey buf2).1]) rest
        else
          RPOut.earlyErr er
            (setShard e (getShardIdx (getKey buf2).1)
              (e.ops.delete (e.cache (getShardIdx (getKey buf2).1)) (getKey buf2).1).2)
            (deleted ++ [(getKey buf2).1])
      | none =>
        (setShard e (getShardIdx (getKey buf2).1)
          (e.ops.delete (e.cache (getShardIdx (getKey buf2).1)) (getKey buf2).1).2).removePoliciesLoop
          buf2 (deleted ++ [(getKey buf2).1]) rest

/- The outcome of a RemovePolicies call; none models the out-of-range panic. -/
structure RemovePoliciesResult (σ : Type) where
  res : Bool
  err : Option GoErr
  state : CachedEnforcer σ
  engineCalls : Nat
  deletedKeys : List String

/- RemovePolicies of enforcer_cached.go: when the rules list is non-empty and
caching is enabled, allocate the irule buffer with the length of the first
rule (its slots initially nil interfaces, the default getKey case) and run the
per-rule loop; then delegate to the wrapped engine unless the loop returned
early. -/
def CachedEnforcer.RemovePolicies {σ : Type} (e : CachedEnforcer σ)
    (rules : List (List String)) : Option (RemovePoliciesResult σ) :=
  if rules.length ≠ 0 ∧ e.enableCache ≠ 0 then
    match e.removePoliciesLoop (List.replicate (rules.headD []).length Param.other) [] rules with
    | RPOut.panicked => none
    | RPOut.earlyErr er e2 deleted => some ⟨false, some er, e2, 0, deleted⟩
    | RPOut.done e2 deleted =>
      some ⟨(e2.enforcer.removePolicies rules).1, (e2.enforcer.removePolicies rules).2,
            e2, 1, deleted⟩
  else
    some ⟨(e.enforcer.removePolicies rules).1, (e.enforcer.removePolicies rules).2, e, 1, []⟩

/- An association-list store used to instantiate the backend state. -/
def lookupB : List (String × Bool) → String → Option Bool
  | [], _ => none
  | (k, v) :: rest, q => if k = q then some v else lookupB rest q

def setB (m : List (String × Bool)) (k : String) (v : Bool) :
    List (String × Bool) :=
  (k, v) :: m.filter (fun kv => kv.1 ≠ k)

def delB (m : List (String × Bool)) (k : String) : List (String × Bool) :=
  m.filter (fun kv => kv.1 ≠ k)

/- A backend state for the tests and witnesses: some m is a healthy in-memory
map store, none is a store whose every operation fails with a backend error. -/
def TestBack : Type := Option (List (String × Bool))

instance : DecidableEq TestBack := by
  unfold TestBack
  infer_instance

/- The message of the injected backend failure of the broken test backend. -/
def backendFailMsg : String := "backend failure"

/- Modelled from the spec: the cache backend capability (persist/cache, which
is outside enforcer_cached.go).  The healthy half follows the spec's default
in-memory map backend: Get returns the distinguished not-found error for an
absent key, Set overwrites, Delete of an absent key returns the not-found
error, Clear empties the store.  The broken half (state none) makes every
operation fail with a backend error distinct from not-found. -/
def testOps : CacheOps TestBack where
  get := fun s k =>
    match s with
    | none => (false, some (GoErr.other backendFailMsg))
    | some m =>
      match lookupB m k with
      | some v => (v, none)
      | none => (false, some GoErr.noSuchKey)
  set := fun s k v _ =>
    match s with
    | none => (some (GoErr.other backendFailMsg), none)
    | some m => (none, some (setB m k v))
  delete := fun s k =>
    match s with
    | none => (some (GoErr.other backendFailMsg), none)
    | some m =>
      if (lookupB m k).isSome then (none, some (delB m k))
      else (some GoErr.noSuchKey, some m)
  clear := fun s =>
    match s with
    | none => (some (GoErr.other backendFailMsg), none)
    | some _ => (none, some [])

/- Projections of setShard. -/
theorem setShard_cache_eq {σ : Type} (e : CachedEnforcer σ) (i : Nat) (s : σ) :
    (setShard e i s).cache i = s := by
  simp [setShard]

theorem setShard_cache_ne {σ : Type} (e : CachedEnforcer σ) (i j : Nat) (s : σ)
    (h : j ≠ i) : (setShard e i s).cache j = e.cache j := by
  simp [setShard, h]

@[simp] theorem setShard_enforcer {σ : Type} (e : CachedEnforcer σ) (i : Nat)
    (s : σ) : (setShard e i s).enforcer = e.enforcer := rfl

@[simp] theorem setShard_ops {σ : Type} (e : CachedEnforcer σ) (i : Nat)
    (s : σ) : (setShard e i s).ops = e.ops := rfl

@[simp] theorem setShard_enable {σ : Type} (e : CachedEnforcer σ) (i : Nat)
    (s : σ) : (setShard e i s).enableCache = e.enableCache := rfl

@[simp] theorem setShard_expire {σ : Type} (e : CachedEnforcer σ) (i : Nat)
    (s : σ) : (setShard e i s).expireTime = e.expireTime := rfl

/- An applicable parameter list yields the concatenation of string forms and
separators, whatever the accumulator already holds. -/
theorem getKeyAux_keyable : ∀ (ps : List Param) (acc : String),
    (∀ p ∈ ps, keyable p = true) → getKeyAux acc ps = (acc ++ keyCat ps, true)
  | [], acc, _ => by simp [getKeyAux, keyCat]
  | Param.str s :: rest, acc, h => by
    rw [getKeyAux, getKeyAux_keyable rest _ (fun q hq => h q (List.mem_cons_of_mem _ hq))]
    simp [keyCat, stringForm, String.append_assoc]
  | Param.cacheable ck :: rest, acc, h => by
    rw [getKeyAux, getKeyAux_keyable rest _ (fun q hq => h q (List.mem_cons_of_mem _ hq))]
    simp [keyCat, stringForm, String.append_assoc]
  | Param.other :: _, _, h => by
    have := h Param.other (List.mem_cons_self _ _)
    simp [keyable] at this

theorem getKey_keyable (ps : List Param) (h : ∀ p ∈ ps, keyable p = true) :
    getKey ps = (keyCat ps, true) := by
  rw [getKey, getKeyAux_keyable ps _ h]
  simp

/- A parameter list holding a non-keyable parameter yields the empty string
and false. -/
theorem getKeyAux_notKeyable : ∀ (ps : List Param) (acc : String),
    (∃ p ∈ ps, keyable p = false) → getKeyAux acc ps = ("", false)
  | [], _, h => by simp at h
  | Param.str s :: rest, acc, h => by
    rw [getKeyAux]
    refine getKeyAux_notKeyable rest _ ?_
    rcases h with ⟨p, hp, hk⟩
    rcases List.mem_cons.1 hp with rfl | hp2
    · simp [keyable] at hk
    · exact ⟨p, hp2, hk⟩
  | Param.cacheable ck :: rest, acc, h => by
    rw [getKeyAux]
    refine getKeyAux_notKeyable rest _ ?_
    rcases h with ⟨p, hp, hk⟩
    rcases List.mem_cons.1 hp with rfl | hp2
    · simp [keyable] at hk
    · exact ⟨p, hp2, hk⟩
  | Param.other :: _, _, _ => rfl

theorem getKey_notKeyable (ps : List Param) (h : ∃ p ∈ ps, keyable p = false) :
    getKey ps = ("", false) :=
  getKeyAux_notKeyable ps _ h

/- Applicability of the whole list implies every parameter is keyable. -/
theorem keyable_of_getKeyAux_true : ∀ (ps : List Param) (acc : String),
    (getKeyAux acc ps).2 = true → ∀ p ∈ ps, keyable p = true
  | [], _, _ => by simp
  | Param.str s :: rest, acc, h => by
    intro p hp
    rcases List.mem_cons.1 hp with rfl | hp2
    · rfl
    · exact keyable_of_getKeyAux_true rest _ (by rw [getKeyAux] at h; exact h) p hp2
  | Param.cacheable ck :: rest, acc, h => by
    intro p hp
    rcases List.mem_cons.1 hp with rfl | hp2
    · rfl
    · exact keyable_of_getKeyAux_true rest _ (by rw [getKeyAux] at h; exact h) p hp2
  | Param.other :: _, _, h => by
    simp [getKeyAux] at h

theorem keyable_of_getKey_true (ps : List Param) (h : (getKey ps).2 = true) :
    ∀ p ∈ ps, keyable p = true :=
  keyable_of_getKeyAux_true ps _ h

/- The characters of the produced key: string forms and separators flattened. -/
theorem keyCat_data : ∀ ps : List Param,
    (keyCat ps).data = (ps.map (fun p => (stringForm p).data ++ ['$', '$'])).flatten
  | [] => rfl
  | p :: ps => by
    rw [keyCat, String.data_append, String.data_append, keyCat_data ps]
    simp

theorem keyCat_append (ps qs : List Param) :
    keyCat (ps ++ qs) = keyCat ps ++ keyCat qs := by
  induction ps with
  | nil =>
    apply String.ext
    simp [keyCat, String.data_append]
  | cons p rest ih =>
    have h1 : (p :: rest) ++ qs = p :: (rest ++ qs) := rfl
    rw [h1, keyCat, keyCat, ih]
    simp [String.append_assoc]

theorem keyCat_length_pos (p : Param) (ps : List Param) :
    0 < (keyCat (p :: ps)).length := by
  rw [keyCat, String.length_append, String.length_append]
  have : ("$$" : String).length = 2 := rfl
  omega

/- One separator-terminated chunk is recovered uniquely when the chunk itself
is free of the separator character. -/
theorem sepChunk_inj : ∀ (x y t1 t2 : List Char), '$' ∉ x → '$' ∉ y →
    x ++ '$' :: '$' :: t1 = y ++ '$' :: '$' :: t2 → x = y ∧ t1 = t2
  | [], [], t1, t2, _, _, h => by simpa using h
  | [], b :: ys, t1, t2, _, hy, h => by
    simp only [List.nil_append, List.cons_append, List.cons.injEq] at h
    exact absurd (List.mem_cons_self b ys) (by rw [← h.1] at hy ⊢; exact hy)
  | a :: xs, [], t1, t2, hx, _, h => by
    simp only [List.nil_append, List.cons_append, List.cons.injEq] at h
    exact absurd (List.mem_cons_self a xs) (by rw [h.1] at hx ⊢; exact hx)
  | a :: xs, b :: ys, t1, t2, hx, hy, h => by
    simp only [List.cons_append, List.cons.injEq] at h
    have hrec := sepChunk_inj xs ys t1 t2
      (fun hm => hx (List.mem_cons_of_mem _ hm))
      (fun hm => hy (List.mem_cons_of_mem _ hm)) h.2
    exact ⟨by rw [h.1, hrec.1], hrec.2⟩

/- Joining separator-terminated chunks is injective when every chunk is free
of the separator character. -/
theorem sepJoin_inj : ∀ (xs ys : List (List Char)),
    (∀ l ∈ xs, '$' ∉ l) → (∀ l ∈ ys, '$' ∉ l) →
    (xs.map (fun l => l ++ ['$', '$'])).flatten =
      (ys.map (fun l => l ++ ['$', '$'])).flatten → xs = ys
  | [], [], _, _, _ => rfl
  | [], y :: ys, _, _, h => by
    rw [List.map_nil, List.flatten_nil, List.map_cons, List.flatten_cons] at h
    have := congrArg List.length h
    simp at this
    omega
  | x :: xs, [], _, _, h => by
    rw [List.map_nil, List.flatten_nil, List.map_cons, List.flatten_cons] at h
    have := congrArg List.length h
    simp at this
  | x :: xs, y :: ys, hx, hy, h => by
    rw [List.map_cons, List.flatten_cons, List.map_cons, List.flatten_cons,
        List.append_assoc, List.append_assoc] at h
    have h2 : x ++ '$' :: '$' :: (xs.map (fun l => l ++ ['$', '$'])).flatten =
        y ++ '$' :: '$' :: (ys.map (fun l => l ++ ['$', '$'])).flatten := h
    have hc := sepChunk_inj _ _ _ _
      (hx x (List.mem_cons_self _ _)) (hy y (List.mem_cons_self _ _)) h2
    have hrest := sepJoin_inj xs ys
      (fun l hl => hx l (List.mem_cons_of_mem _ hl))
      (fun l hl => hy l (List.mem_cons_of_mem _ hl)) hc.2
    rw [hc.1, hrest]

/- Enforce case analysis: caching disabled. -/
theorem Enforce_disabled {σ : Type} (e : CachedEnforcer σ) (rvals : List Param)
    (h : e.enableCache = 0) :
    e.Enforce rvals =
      ⟨(e.enforcer.enforce rvals).1, (e.enforcer.enforce rvals).2, e, 1, 0, 0⟩ := by
  simp [CachedEnforcer.Enforce, h]

/- Enforce case analysis: key not applicable. -/
theorem Enforce_notApplicable {σ : Type} (e : CachedEnforcer σ)
    (rvals : List Param) (h1 : e.enableCache ≠ 0)
    (h2 : (getKey rvals).2 = false) :
    e.Enforce rvals =
      ⟨(e.enforcer.enforce rvals).1, (e.enforcer.enforce rvals).2, e, 1, 0, 0⟩ := by
  simp [CachedEnforcer.Enforce, h1, h2]

/- Enforce case analysis: cache hit. -/
theorem Enforce_hit {σ : Type} (e : CachedEnforcer σ) (rvals : List Param)
    (h1 : e.enableCache ≠ 0) (h2 : (getKey rvals).2 = true)
    (h3 : (e.getCachedResult (getKey rvals).1).2 = none) :
    e.Enforce rvals =
      ⟨(e.getCachedResult (getKey rvals).1).1, none, e, 0, 1, 0⟩ := by
  simp [CachedEnforcer.Enforce, h1, h2, h3]

/- Enforce case analysis: the lookup failed with an error other than
ErrNoSuchKey. -/
theorem Enforce_backendFail {σ : Type} (e : CachedEnforcer σ)
    (rvals : List Param) (er : GoErr) (h1 : e.enableCache ≠ 0)
    (h2 : (getKey rvals).2 = true)
    (h3 : (e.getCachedResult (getKey rvals).1).2 = some er)
    (h4 : er ≠ GoErr.noSuchKey) :
    e.Enforce rvals =
      ⟨(e.getCachedResult (getKey rvals).1).1, some er, e, 0, 1, 0⟩ := by
  simp [CachedEnforcer.Enforce, h1, h2, h3, h4]

/- Enforce case analysis: cache miss and a failing evaluation. -/
theorem Enforce_missEngineErr {σ : Type} (e : CachedEnforcer σ)
    (rvals : List Param) (er2 : GoErr) (h1 : e.enableCache ≠ 0)
    (h2 : (getKey rvals).2 = true)
    (h3 : (e.getCachedResult (getKey rvals).1).2 = some GoErr.noSuchKey)
    (h4 : (e.enforcer.enforce rvals).2 = some er2) :
    e.Enforce rvals = ⟨false, some er2, e, 1, 1, 0⟩ := by
  simp [CachedEnforcer.Enforce, h1, h2, h3, h4]

/- Enforce case analysis: cache miss, successful evaluation, then Set. -/
theorem Enforce_missStore {σ : Type} (e : CachedEnforcer σ)
    (rvals : List Param) (h1 : e.enableCache ≠ 0)
    (h2 : (getKey rvals).2 = true)
    (h3 : (e.getCachedResult (getKey rvals).1).2 = some GoErr.noSuchKey)
    (h4 : (e.enforcer.enforce rvals).2 = none) :
    e.Enforce rvals =
      ⟨(e.enforcer.enforce rvals).1,
       (e.setCachedResult (getKey rvals).1 (e.enforcer.enforce rvals).1).1,
       (e.setCachedResult (getKey rvals).1 (e.enforcer.enforce rvals).1).2,
       1, 1, 1⟩ := by
  simp [CachedEnforcer.Enforce, h1, h2, h3, h4]

/- Shards outside the clearing window are untouched by the loop. -/
theorem clearRange_frame {σ : Type} : ∀ (n i : Nat) (e : CachedEnforcer σ)
    (j : Nat), j < i ∨ i + n ≤ j → (e.clearRange i n).2.cache j = e.cache j
  | 0, _, _, _, _ => rfl
  | Nat.succ n, i, e, j, hj => by
    have hji : j ≠ i := by omega
    rw [CachedEnforcer.clearRange]
    cases hcl : (e.ops.clear (e.cache i)).1 with
    | some er =>
      simpa using setShard_cache_ne e i j _ hji
    | none =>
      rw [clearRange_frame n (i + 1) _ j (by omega)]
      exact setShard_cache_ne e i j _ hji

/- The loop changes only the shard states, never the other fields. -/
theorem clearRange_fields {σ : Type} : ∀ (n i : Nat) (e : CachedEnforcer σ),
    (e.clearRange i n).2.ops = e.ops ∧ (e.clearRange i n).2.enforcer = e.enforcer
      ∧ (e.clearRange i n).2.enableCache = e.enableCache
      ∧ (e.clearRange i n).2.expireTime = e.expireTime
  | 0, _, _ => ⟨rfl, rfl, rfl, rfl⟩
  | Nat.succ n, i, e => by
    rw [CachedEnforcer.clearRange]
    cases hcl : (e.ops.clear (e.cache i)).1 with
    | some er => exact ⟨rfl, rfl, rfl, rfl⟩
    | none => simpa using clearRange_fields n (i + 1) (setShard e i (e.ops.clear (e.cache i)).2)

/- When every shard of the window clears without error, the loop returns no
error and leaves every shard of the window in its cleared state. -/
theorem clearRange_success {σ : Type} : ∀ (n i : Nat) (e : CachedEnforcer σ),
    (∀ j, i ≤ j → j < i + n → (e.ops.clear (e.cache j)).1 = none) →
    (e.clearRange i n).1 = none ∧
      ∀ j, i ≤ j → j < i + n →
        (e.clearRange i n).2.cache j = (e.ops.clear (e.cache j)).2
  | 0, i, e, _ => ⟨rfl, fun _ h1 h2 => by omega⟩
  | Nat.succ n, i, e, h => by
    have hi : (e.ops.clear (e.cache i)).1 = none := h i (Nat.le_refl i) (by omega)
    rw [CachedEnforcer.clearRange, hi]
    have hrec := clearRange_success n (i + 1)
      (setShard e i (e.ops.clear (e.cache i)).2) (fun j h1 h2 => by
        rw [setShard_ops, setShard_cache_ne e i j _ (by omega)]
        exact h j (by omega) (by omega))
    refine ⟨hrec.1, fun j h1 h2 => ?_⟩
    rcases Nat.eq_or_lt_of_le h1 with heq | hlt
    · rw [← heq]
      rw [clearRange_frame n (i + 1) _ i (Or.inl (by omega))]
      exact setShard_cache_eq e i _
    · have h3 := hrec.2 j (by omega) (by omega)
      rw [h3, setShard_ops, setShard_cache_ne e i j _ (by omega)]

/- When shard k is the first whose Clear fails, the loop returns that error;
every shard before k is left cleared, shard k is left in the state its
failing Clear produced, and every shard after k is untouched. -/
theorem clearRange_fail {σ : Type} : ∀ (n i : Nat) (e : CachedEnforcer σ)
    (k : Nat) (er : GoErr), i ≤ k → k < i + n →
    (∀ j, i ≤ j → j < k → (e.ops.clear (e.cache j)).1 = none) →
    (e.ops.clear (e.cache k)).1 = some er →
    (e.clearRange i n).1 = some er ∧
      (∀ j, k < j → (e.clearRange i n).2.cache j = e.cache j) ∧
      (∀ j, i ≤ j → j < k →
        (e.clearRange i n).2.cache j = (e.ops.clear (e.cache j)).2) ∧
      (e.clearRange i n).2.cache k = (e.ops.clear (e.cache k)).2
  | 0, i, e, k, er, hik, hkn, _, _ => by omega
  | Nat.succ n, i, e, k, er, hik, hkn, hpre, hk => by
    rcases Nat.eq_or_lt_of_le hik with heq | hlt
    · rw [← heq] at hk ⊢
      rw [CachedEnforcer.clearRange, hk]
      refine ⟨rfl, fun j hj => setShard_cache_ne e i j _ (by omega),
        fun j h1 h2 => by omega, setShard_cache_eq e i _⟩
    · have hi : (e.ops.clear (e.cache i)).1 = none := hpre i (Nat.le_refl i) hlt
      rw [CachedEnforcer.clearRange, hi]
      have hrec := clearRange_fail n (i + 1)
        (setShard e i (e.ops.clear (e.cache i)).2) k er (by omega) (by omega)
        (fun j h1 h2 => by
          rw [setShard_ops, setShard_cache_ne e i j _ (by omega)]
          exact hpre j (by omega) h2)
        (by rw [setShard_ops, setShard_cache_ne e i k _ (by omega)]; exact hk)
      refine ⟨hrec.1, fun j hj => ?_, fun j h1 h2 => ?_, ?_⟩
      · rw [hrec.2.1 j hj, setShard_cache_ne e i j _ (by omega)]
      · rcases Nat.eq_or_lt_of_le h1 with heq2 | hlt2
        · rw [← heq2]
          rw [clearRange_frame n (i + 1) _ i (Or.inl (by omega))]
          exact setShard_cache_eq e i _
        · have h3 := hrec.2.2.1 j (by omega) h2
          rw [h3, setShard_ops, setShard_cache_ne e i j _ (by omega)]
      · have h4 := hrec.2.2.2
        rw [h4, setShard_ops, setShard_cache_ne e i k _ (by omega)]

/- Concrete fixtures for witnesses and counterexamples. -/

/- The message of the injected engine failure. -/
def engineFailMsg : String := "engine failure"

/- An engine whose every operation succeeds. -/
def okEngine : Enforcer where
  enforce := fun _ => (true, none)
  loadPolicy := none
  removePolicy := fun _ => (true, none)
  removePolicies := fun _ => (true, none)

/- An engine whose evaluation deterministically fails. -/
def errEngine : Enforcer :=
  { okEngine with enforce := fun _ => (false, some (GoErr.other engineFailMsg)) }

/- A cached enforcer whose every shard is a healthy empty map store. -/
def healthyE : CachedEnforcer TestBack where
  enforcer := okEngine
  expireTime := 0
  ops := testOps
  cache := fun _ => some []
  enableCache := 1

/- The same enforcer with every shard's backend failing. -/
def brokenE : CachedEnforcer TestBack :=
  { healthyE with cache := fun _ => none }

/- The same enforcer with caching disabled. -/
def disabledE : CachedEnforcer TestBack :=
  { healthyE with enableCache := 0 }

/- Healthy shards in front of a failing engine. -/
def missEngineE : CachedEnforcer TestBack :=
  { healthyE with enforcer := errEngine }

/- The spec's concrete request tuple. -/
def abcParams : List Param :=
  [Param.str ("alice"), Param.str ("data1"), Param.str ("read")]

/-- Claim C9: when the enable-cache flag is 0, Enforce performs no cache read
and no cache write, leaves every shard's backend state unchanged, and returns
exactly the (bool, error) result of the underlying decision engine. -/
theorem C9_disabled_bypasses_cache {σ : Type} (e : CachedEnforcer σ)
    (rvals : List Param) (h : e.enableCache = 0) :
    (e.Enforce rvals).res = (e.enforcer.enforce rvals).1 ∧
    (e.Enforce rvals).err = (e.enforcer.enforce rvals).2 ∧
    (e.Enforce rvals).cacheGets = 0 ∧ (e.Enforce rvals).cacheSets = 0 ∧
    ∀ j, (e.Enforce rvals).state.cache j = e.cache j := by
  rw [Enforce_disabled e rvals h]
  exact ⟨rfl, rfl, rfl, rfl, fun _ => rfl⟩

theorem C9_witness :
    (disabledE.Enforce abcParams).err = none ∧
    (disabledE.Enforce abcParams).cacheGets = 0 := by
  have h := C9_disabled_bypasses_cache disabledE abcParams rfl
  exact ⟨h.2.1, h.2.2.1⟩

/-- Claim C7: when the cache lookup returns an error distinct from the
not-found value, Enforce propagates that error, does not invoke the decision
engine, and writes nothing to the cache. -/
theorem C7_backendFail_propagates {σ : Type} (e : CachedEnforcer σ)
    (rvals : List Param) (er : GoErr) (h1 : e.enableCache ≠ 0)
    (h2 : (getKey rvals).2 = true)
    (h3 : (e.getCachedResult (getKey rvals).1).2 = some er)
    (h4 : er ≠ GoErr.noSuchKey) :
    (e.Enforce rvals).err = some er ∧ (e.Enforce rvals).engineCalls = 0 ∧
    (e.Enforce rvals).cacheSets = 0 ∧
    ∀ j, (e.Enforce rvals).state.cache j = e.cache j := by
  rw [Enforce_backendFail e rvals er h1 h2 h3 h4]
  exact ⟨rfl, rfl, rfl, fun _ => rfl⟩

theorem C7_witness :
    (brokenE.Enforce abcParams).err = some (GoErr.other backendFailMsg) ∧
    (brokenE.Enforce abcParams).engineCalls = 0 := by
  have h := C7_backendFail_propagates brokenE abcParams
    (GoErr.other backendFailMsg) (by decide) rfl rfl (by decide)
  exact ⟨h.1, h.2.1⟩

/-- Claim C4: on a cache miss the decision engine is invoked; if it errors,
Enforce returns that error and no cache entry is created; if it succeeds but
the subsequent Set fails, Enforce surfaces the Set error to the caller even
though the decision was computed. -/
theorem C4_missPath {σ : Type} (e : CachedEnforcer σ) (rvals : List Param)
    (h1 : e.enableCache ≠ 0) (h2 : (getKey rvals).2 = true)
    (h3 : (e.getCachedResult (getKey rvals).1).2 = some GoErr.noSuchKey) :
    (e.Enforce rvals).engineCalls = 1 ∧
    (∀ er, (e.enforcer.enforce rvals).2 = some er →
      (e.Enforce rvals).res = false ∧ (e.Enforce rvals).err = some er ∧
      (e.Enforce rvals).cacheSets = 0 ∧
      ∀ j, (e.Enforce rvals).state.cache j = e.cache j) ∧
    ((e.enforcer.enforce rvals).2 = none → ∀ serr,
      (e.setCachedResult (getKey rvals).1 (e.enforcer.enforce rvals).1).1 = some serr →
      (e.Enforce rvals).err = some serr ∧
      (e.Enforce rvals).res = (e.enforcer.enforce rvals).1) := by
  cases h4 : (e.enforcer.enforce rvals).2 with
  | some er2 =>
    rw [Enforce_missEngineErr e rvals er2 h1 h2 h3 h4]
    refine ⟨rfl, fun er her => ?_, fun hnone => ?_⟩
    · injection her with h5
      rw [← h5]
      exact ⟨rfl, rfl, rfl, fun _ => rfl⟩
    · exact Option.noConfusion hnone
  | none =>
    rw [Enforce_missStore e rvals h1 h2 h3 h4]
    exact ⟨rfl, fun er her => Option.noConfusion her,
      fun _ serr hs => ⟨hs, rfl⟩⟩

theorem C4_witness :
    (missEngineE.Enforce abcParams).res = false ∧
    (missEngineE.Enforce abcParams).err = some (GoErr.other engineFailMsg) ∧
    (missEngineE.Enforce abcParams).engineCalls = 1 := by
  have h := C4_missPath missEngineE abcParams (by decide) rfl rfl
  have h2 := h.2.1 (GoErr.other engineFailMsg) rfl
  exact ⟨h2.1, h2.2.1, h.1⟩

/-- Claim C8: getKey appends each parameter's string form followed by the
two-character separator, in order, reporting applicable = true; a list with a
parameter of any other type yields the empty string and applicable = false,
never a partial key; and the tuple (alice, data1, read) yields the key
alice$$data1$$read$$. -/
theorem C8_getKey_spec :
    (∀ ps : List Param, (∀ p ∈ ps, keyable p = true) →
      getKey ps = (keyCat ps, true)) ∧
    (∀ ps : List Param, (∃ p ∈ ps, keyable p = false) →
      getKey ps = ("", false)) ∧
    getKey abcParams = ("alice$$data1$$read$$", true) :=
  ⟨getKey_keyable, getKey_notKeyable, by decide⟩

theorem C8_witness : getKey [Param.other] = ("", false) :=
  C8_getKey_spec.2.1 [Param.other] ⟨Param.other, List.mem_cons_self _ _, rfl⟩

/- Parameter lists for the key-collision counterexample: a single parameter
containing the separator collides with the two-parameter split. -/
def c3p : List Param := [Param.str ("a$$b")]

def c3q : List Param := [Param.str ("a"), Param.str ("b")]

/-- Claim C3 counterexample: two applicable tuples of different lengths (and
different string-form sequences) produce the same key, so getKey is not
injective over applicable parameter tuples as the claim states. -/
theorem C3_counterexample :
    (getKey c3p).2 = true ∧ (getKey c3q).2 = true ∧
    (getKey c3p).1 = (getKey c3q).1 ∧
    c3p.length ≠ c3q.length ∧ c3p.map stringForm ≠ c3q.map stringForm := by
  decide

/-- Claim C3 (amended): the key derived by getKey is injective over
applicable parameter tuples none of whose string forms contain the separator
character: for two such tuples, equal keys force the same length and equal
string forms at every position. -/
theorem C3_getKey_injective_amended (ps qs : List Param)
    (hps : (getKey ps).2 = true) (hqs : (getKey qs).2 = true)
    (hd1 : ∀ p ∈ ps, '$' ∉ (stringForm p).data)
    (hd2 : ∀ p ∈ qs, '$' ∉ (stringForm p).data)
    (heq : (getKey ps).1 = (getKey qs).1) :
    ps.map stringForm = qs.map stringForm ∧ ps.length = qs.length := by
  have hk1 := keyable_of_getKey_true ps hps
  have hk2 := keyable_of_getKey_true qs hqs
  rw [getKey_keyable ps hk1, getKey_keyable qs hk2] at heq
  have heq2 : keyCat ps = keyCat qs := heq
  have hdata := congrArg String.data heq2
  rw [keyCat_data, keyCat_data] at hdata
  have hmm : ∀ l : List Param,
      l.map (fun p => (stringForm p).data ++ ['$', '$']) =
        (l.map (fun p => (stringForm p).data)).map (fun l2 => l2 ++ ['$', '$']) := by
    intro l
    rw [List.map_map]
    rfl
  rw [hmm ps, hmm qs] at hdata
  have hinj := sepJoin_inj (ps.map (fun p => (stringForm p).data))
    (qs.map (fun p => (stringForm p).data))
    (fun l hl => by
      rcases List.mem_map.1 hl with ⟨p, hp, rfl⟩
      exact hd1 p hp)
    (fun l hl => by
      rcases List.mem_map.1 hl with ⟨p, hp, rfl⟩
      exact hd2 p hp) hdata
  have hmaps : (ps.map stringForm).map String.data =
      (qs.map stringForm).map String.data := by
    rw [List.map_map, List.map_map]
    exact hinj
  have hfinal : ps.map stringForm = qs.map stringForm :=
    List.map_injective_iff.mpr (fun a b hab => String.ext hab) hmaps
  refine ⟨hfinal, ?_⟩
  have := congrArg List.length hfinal
  simpa using this

/- Tuples with equal keys and no separator characters, used as the witness
input for the amended injectivity statement. -/
def c3r : List Param := [Param.str ("a"), Param.cacheable ("b")]

def c3s : List Param := [Param.cacheable ("a"), Param.str ("b")]

theorem C3_witness :
    c3r.map stringForm = c3s.map stringForm ∧ c3r.length = c3s.length :=
  C3_getKey_injective_amended c3r c3s rfl rfl (by decide) (by decide) (by decide)

/- A shard layout for the invalidation counterexample: shard 0 fails, shard 1
holds an entry a successful Clear would wipe, all other shards are empty. -/
def invE : CachedEnforcer TestBack :=
  { healthyE with
    cache := fun j => if j = 0 then none else
      if j = 1 then some [("x", true)] else some [] }

/-- Claim C2 counterexample: with shard 0 failing, InvalidateCache returns
shard 0's error but leaves shard 1 exactly as it was, although shard 1's
Clear, had it been invoked, would have changed its state; so the remaining
shards' Clear is not attempted, contrary to the claim. -/
theorem C2_counterexample :
    invE.InvalidateCache.1 = some (GoErr.other backendFailMsg) ∧
    invE.InvalidateCache.2.cache 1 = invE.cache 1 ∧
    (invE.ops.clear (invE.cache 1)).2 ≠ invE.cache 1 := by
  decide

/-- Claim C2 (amended): when some shard's Clear fails, InvalidateCache
returns the first error encountered and stops: shards before the first
failing one are cleared, shards after it keep their previous state (their
Clear is never attempted). -/
theorem C2_invalidateCache_amended {σ : Type} (e : CachedEnforcer σ)
    (k : Nat) (er : GoErr) (hk : k < shardPartitions)
    (hpre : ∀ j, j < k → (e.ops.clear (e.cache j)).1 = none)
    (hfail : (e.ops.clear (e.cache k)).1 = some er) :
    e.InvalidateCache.1 = some er ∧
    (∀ j, j < k → e.InvalidateCache.2.cache j = (e.ops.clear (e.cache j)).2) ∧
    (∀ j, k < j → e.InvalidateCache.2.cache j = e.cache j) := by
  have h := clearRange_fail shardPartitions 0 e k er (Nat.zero_le k)
    (by omega) (fun j _ h2 => hpre j h2) hfail
  exact ⟨h.1, fun j hj => h.2.2.1 j (Nat.zero_le j) hj, h.2.1⟩

theorem C2_witness :
    invE.InvalidateCache.1 = some (GoErr.other backendFailMsg) ∧
    invE.InvalidateCache.2.cache 3 = invE.cache 3 := by
  have h := C2_invalidateCache_amended invE 0 (GoErr.other backendFailMsg)
    (by decide) (fun j hj => absurd hj (Nat.not_lt_zero j)) rfl
  exact ⟨h.1, h.2.2 3 (by decide)⟩

/-- Claim C6: with caching enabled, LoadPolicy clears every shard before
delegating to the engine's reload; if a shard's Clear fails first, LoadPolicy
returns that error and the reload is never invoked; when all clears succeed,
or caching is disabled, it delegates and returns the engine's result. -/
theorem C6_loadPolicy {σ : Type} (e : CachedEnforcer σ) :
    (e.enableCache ≠ 0 →
      (∀ j, j < shardPartitions → (e.ops.clear (e.cache j)).1 = none) →
      e.LoadPolicy.err = e.enforcer.loadPolicy ∧ e.LoadPolicy.engineCalls = 1 ∧
      ∀ j, j < shardPartitions →
        e.LoadPolicy.state.cache j = (e.ops.clear (e.cache j)).2) ∧
    (e.enableCache ≠ 0 → ∀ k er, k < shardPartitions →
      (∀ j, j < k → (e.ops.clear (e.cache j)).1 = none) →
      (e.ops.clear (e.cache k)).1 = some er →
      e.LoadPolicy.err = some er ∧ e.LoadPolicy.engineCalls = 0) ∧
    (e.enableCache = 0 →
      e.LoadPolicy.err = e.enforcer.loadPolicy ∧ e.LoadPolicy.engineCalls = 1) := by
  refine ⟨fun h1 h2 => ?_, fun h1 k er hk hpre hfail => ?_, fun h0 => ?_⟩
  · have hs := clearRange_success shardPartitions 0 e (fun j _ hj => h2 j hj)
    have hflds := clearRange_fields shardPartitions 0 e
    rw [CachedEnforcer.LoadPolicy, if_pos h1]
    simp only [hs.1]
    refine ⟨?_, ?_, ?_⟩
    · exact congrArg Enforcer.loadPolicy hflds.2.1
    · trivial
    · exact fun j hj => hs.2 j (Nat.zero_le j) hj
  · have hf := clearRange_fail shardPartitions 0 e k er (Nat.zero_le k)
      (by omega) (fun j _ h2 => hpre j h2) hfail
    rw [CachedEnforcer.LoadPolicy, if_pos h1]
    simp only [hf.1]
    refine ⟨?_, ?_⟩ <;> trivial
  · rw [CachedEnforcer.LoadPolicy, if_neg (fun hne => hne h0)]
    exact ⟨rfl, rfl⟩

theorem C6_witness :
    healthyE.LoadPolicy.err = none ∧ healthyE.LoadPolicy.engineCalls = 1 := by
  have h := (C6_loadPolicy healthyE).1 (by decide) (fun j hj => rfl)
  exact ⟨h.1, h.2.1⟩

/- Map-store lemmas for the healthy test backend. -/
theorem lookupB_setB_eq (m : List (String × Bool)) (k : String) (v : Bool) :
    lookupB (setB m k v) k = some v := by
  simp [setB, lookupB]

theorem lookupB_delB_eq : ∀ (m : List (String × Bool)) (k : String),
    lookupB (delB m k) k = none
  | [], _ => rfl
  | (a, b) :: rest, k => by
    by_cases hak : a = k
    · simpa [delB, List.filter_cons, hak] using lookupB_delB_eq rest k
    · simpa [delB, List.filter_cons, hak, lookupB] using lookupB_delB_eq rest k

theorem lookupB_delB_ne : ∀ (m : List (String × Bool)) (k k2 : String),
    k2 ≠ k → lookupB (delB m k) k2 = lookupB m k2
  | [], _, _, _ => rfl
  | (a, b) :: rest, k, k2, hne => by
    by_cases hak : a = k
    · rw [hak]
      simpa [delB, List.filter_cons, lookupB, Ne.symm hne]
        using lookupB_delB_ne rest k k2 hne
    · by_cases hak2 : a = k2
      · simp [delB, List.filter_cons, hak, lookupB, hak2, hne]
      · simpa [delB, List.filter_cons, hak, lookupB, hak2]
          using lookupB_delB_ne rest k k2 hne

theorem lookupB_setB_ne (m : List (String × Bool)) (k k2 : String) (v : Bool)
    (hne : k2 ≠ k) : lookupB (setB m k v) k2 = lookupB m k2 := by
  rw [setB]
  show lookupB ((k, v) :: delB m k) k2 = lookupB m k2
  rw [lookupB]
  simp [Ne.symm hne, lookupB_delB_ne m k k2 hne]

/- Storing through setCachedResult on a healthy shard succeeds and makes a
subsequent lookup of the same key return the stored value. -/
theorem setCached_then_get (e : CachedEnforcer TestBack) (k : String)
    (v : Bool) (m : List (String × Bool)) (hops : e.ops = testOps)
    (hsh : e.cache (getShardIdx k) = some m) :
    (e.setCachedResult k v).1 = none ∧
    (e.setCachedResult k v).2.getCachedResult k = (v, none) := by
  constructor
  · simp [CachedEnforcer.setCachedResult, hops, hsh, testOps]
  · simp [CachedEnforcer.setCachedResult, CachedEnforcer.getCachedResult,
      hops, hsh, testOps, setShard_cache_eq, lookupB_setB_eq]

/-- Claim C1 counterexample: with healthy backends whose operations succeed,
a string-only parameter tuple, and no mutation between the calls, a
deterministically failing evaluation makes both Enforce calls miss and invoke
the decision engine, so the engine runs twice, not at most once (both calls
do return the same boolean). -/
theorem C1_counterexample :
    (missEngineE.Enforce abcParams).engineCalls +
      ((missEngineE.Enforce abcParams).state.Enforce abcParams).engineCalls = 2 ∧
    (missEngineE.Enforce abcParams).res =
      ((missEngineE.Enforce abcParams).state.Enforce abcParams).res := by
  decide

/-- Claim C1 (amended): for every string-only parameter tuple, with caching
enabled, no mutation between the calls, a healthy map backend on the key's
shard, and a decision engine whose evaluation of the tuple succeeds, calling
Enforce twice returns the same boolean both times with no error, and the
engine is invoked at most once across the two calls. -/
theorem C1_cachedIdempotent (e : CachedEnforcer TestBack) (ps : List Param)
    (b : Bool) (m : List (String × Bool)) (hops : e.ops = testOps)
    (hen : e.enableCache ≠ 0) (hstr : ∀ p ∈ ps, ∃ s, p = Param.str s)
    (hsh : e.cache (getShardIdx (getKey ps).1) = some m)
    (heng : e.enforcer.enforce ps = (b, none)) :
    (e.Enforce ps).err = none ∧
    ((e.Enforce ps).state.Enforce ps).err = none ∧
    (e.Enforce ps).res = ((e.Enforce ps).state.Enforce ps).res ∧
    (e.Enforce ps).engineCalls +
      ((e.Enforce ps).state.Enforce ps).engineCalls ≤ 1 := by
  have hkeyable : ∀ p ∈ ps, keyable p = true := fun p hp => by
    rcases hstr p hp with ⟨s, rfl⟩
    rfl
  have h2 : (getKey ps).2 = true := by
    rw [getKey_keyable ps hkeyable]
  cases hl : lookupB m (getKey ps).1 with
  | some v =>
    have hget : (e.getCachedResult (getKey ps).1).2 = none := by
      rw [CachedEnforcer.getCachedResult, hops, hsh]
      simp [testOps, hl]
    have hE := Enforce_hit e ps hen h2 hget
    simp only [hE]
    exact ⟨by trivial, by trivial, by trivial, by omega⟩
  | none =>
    have hget : (e.getCachedResult (getKey ps).1).2 = some GoErr.noSuchKey := by
      rw [CachedEnforcer.getCachedResult, hops, hsh]
      simp [testOps, hl]
    have heng2 : (e.enforcer.enforce ps).2 = none := by rw [heng]
    have hE := Enforce_missStore e ps hen h2 hget heng2
    have hsg := setCached_then_get e (getKey ps).1 (e.enforcer.enforce ps).1 m
      hops hsh
    have hen2 : (e.setCachedResult (getKey ps).1 (e.enforcer.enforce ps).1).2.enableCache ≠ 0 := by
      rw [CachedEnforcer.setCachedResult]
      rw [setShard_enable]
      exact hen
    have hget2 : ((e.setCachedResult (getKey ps).1 (e.enforcer.enforce ps).1).2.getCachedResult (getKey ps).1).2 = none := by
      rw [hsg.2]
    have hE2 := Enforce_hit
      (e.setCachedResult (getKey ps).1 (e.enforcer.enforce ps).1).2 ps hen2 h2 hget2
    simp only [hE, hE2]
    refine ⟨hsg.1, by trivial, ?_, by omega⟩
    have := congrArg Prod.fst hsg.2
    exact this.symm

theorem C1_witness :
    (healthyE.Enforce abcParams).err = none ∧
    ((healthyE.Enforce abcParams).state.Enforce abcParams).err = none ∧
    (healthyE.Enforce abcParams).engineCalls +
      ((healthyE.Enforce abcParams).state.Enforce abcParams).engineCalls ≤ 1 := by
  have h := C1_cachedIdempotent healthyE abcParams true [] rfl (by decide)
    (by
      intro p hp
      simp only [abcParams, List.mem_cons, List.not_mem_nil, or_false] at hp
      rcases hp with rfl | rfl | rfl <;> exact ⟨_, rfl⟩)
    rfl rfl
  exact ⟨h.1, h.2.1, h.2.2.2⟩

/- Lookup through a possibly broken shard state. -/
def lookupTB : TestBack → String → Option Bool
  | none, _ => none
  | some m, k => lookupB m k

/-- Claim C5: with caching enabled and a healthy map backend, RemovePolicy
deletes exactly the entry keyed by the removed rule (absence is not an
error), leaves entries under every other (shard, key) unchanged, and then
delegates to the decision engine and returns its outcome whatever it is; a
non-applicable tuple leaves the cache untouched and still delegates. -/
theorem C5_removePolicy (e : CachedEnforcer TestBack) (params : List Param)
    (hops : e.ops = testOps) (hen : e.enableCache ≠ 0)
    (hh : ∀ j, ∃ m, e.cache j = some m) :
    ((e.RemovePolicy params).res, (e.RemovePolicy params).err) =
      e.enforcer.removePolicy params ∧
    (e.RemovePolicy params).engineCalls = 1 ∧
    ((getKey params).2 = true →
      lookupTB ((e.RemovePolicy params).state.cache
          (getShardIdx (getKey params).1)) (getKey params).1 = none ∧
      ∀ j k2, j ≠ getShardIdx (getKey params).1 ∨ k2 ≠ (getKey params).1 →
        lookupTB ((e.RemovePolicy params).state.cache j) k2 =
          lookupTB (e.cache j) k2) ∧
    ((getKey params).2 = false →
      ∀ j, (e.RemovePolicy params).state.cache j = e.cache j) := by
  rcases hh (getShardIdx (getKey params).1) with ⟨m, hsh⟩
  cases hk : (getKey params).2 with
  | false =>
    rw [CachedEnforcer.RemovePolicy, if_pos hen]
    simp only [hk]
    exact ⟨rfl, rfl, fun hcontra => Bool.noConfusion hcontra,
      fun _ j => rfl⟩
  | true =>
    rw [CachedEnforcer.RemovePolicy, if_pos hen]
    simp only [hk, if_true]
    cases hl : lookupB m (getKey params).1 with
    | some v =>
      have hdel : e.ops.delete (e.cache (getShardIdx (getKey params).1))
          (getKey params).1 = (none, some (delB m (getKey params).1)) := by
        rw [hops, hsh]
        simp [testOps, hl]
      simp only [hdel, if_true]
      refine ⟨by trivial, by trivial, fun _ => ⟨?_, fun j k2 hor => ?_⟩,
        fun hcontra => Bool.noConfusion hcontra⟩
      · rw [setShard_cache_eq]
        exact lookupB_delB_eq m (getKey params).1
      · rcases Decidable.em (j = getShardIdx (getKey params).1) with heq | hne
        · rcases hor with hne1 | hne2
          · exact absurd heq hne1
          · rw [heq, setShard_cache_eq, hsh]
            exact lookupB_delB_ne m (getKey params).1 k2 hne2
        · rw [setShard_cache_ne _ _ _ _ hne]
    | none =>
      have hdel : e.ops.delete (e.cache (getShardIdx (getKey params).1))
          (getKey params).1 = (some GoErr.noSuchKey, some m) := by
        rw [hops, hsh]
        simp [testOps, hl]
      simp only [hdel, if_true]
      refine ⟨by trivial, by trivial, fun _ => ⟨?_, fun j k2 hor => ?_⟩,
        fun hcontra => Bool.noConfusion hcontra⟩
      · rw [setShard_cache_eq]
        exact hl
      · rcases Decidable.em (j = getShardIdx (getKey params).1) with heq | hne
        · rw [heq, setShard_cache_eq, hsh]
        · rw [setShard_cache_ne _ _ _ _ hne]

theorem C5_witness :
    ((healthyE.RemovePolicy abcParams).res,
      (healthyE.RemovePolicy abcParams).err) = (true, none) ∧
    (healthyE.RemovePolicy abcParams).engineCalls = 1 ∧
    lookupTB ((healthyE.RemovePolicy abcParams).state.cache
      (getShardIdx (getKey abcParams).1)) (getKey abcParams).1 = none := by
  have h := C5_removePolicy healthyE abcParams rfl (by decide)
    (fun j => ⟨[], rfl⟩)
  exact ⟨h.1, h.2.1, (h.2.2.1 (by decide)).1⟩

/- The buffer contents after the inner loop of RemovePolicies overwrites the
prefix with a rule that fits: the rule's parameters followed by the leftover
suffix of the previous buffer. -/
def overlayP (buf : List Param) (rule : List String) : List Param :=
  rule.map Param.str ++ buf.drop rule.length

/- The successive buffer contents of the per-rule loop. -/
def bufsFrom : List Param → List (List String) → List (List Param)
  | _, [] => []
  | buf, r :: rest => overlayP buf r :: bufsFrom (overlayP buf r) rest

/- Every parameter of the buffer is a raw string. -/
def allStr (b : List Param) : Prop := ∀ p ∈ b, ∃ s, p = Param.str s

theorem overlayP_length (buf : List Param) (rule : List String)
    (h : rule.length ≤ buf.length) : (overlayP buf rule).length = buf.length := by
  simp [overlayP]
  omega

theorem overlayP_allStr (buf : List Param) (rule : List String)
    (h : allStr buf) : allStr (overlayP buf rule) := by
  intro p hp
  rcases List.mem_append.1 hp with h1 | h2
  · rcases List.mem_map.1 h1 with ⟨s, _, rfl⟩
    exact ⟨s, rfl⟩
  · exact h p (List.mem_of_mem_drop h2)

/- When the rule fits the remaining buffer, the inner loop succeeds and
produces exactly the overlay of the rule on the buffer at position i. -/
theorem fillBuf_eq_overlay : ∀ (rule : List String) (buf : List Param)
    (i : Nat), i + rule.length ≤ buf.length →
    fillBuf buf i rule =
      some (buf.take i ++ rule.map Param.str ++ buf.drop (i + rule.length))
  | [], buf, i, _ => by
    simp [fillBuf, List.take_append_drop]
  | s :: rest, buf, i, h => by
    have hlr : i + (rest.length + 1) ≤ buf.length := by simpa using h
    have hi : i < buf.length := by omega
    rw [fillBuf, writeBuf, if_pos hi]
    show fillBuf (buf.set i (Param.str s)) (i + 1) rest = _
    rw [fillBuf_eq_overlay rest (buf.set i (Param.str s)) (i + 1)
      (by rw [List.length_set]; omega)]
    congr 1
    rw [List.set_eq_take_append_cons_drop, if_pos hi]
    have hlen : (buf.take i).length = i := by
      rw [List.length_take]
      omega
    have h1 : (buf.take i ++ Param.str s :: buf.drop (i + 1)).take (i + 1) =
        buf.take i ++ [Param.str s] := by
      rw [show i + 1 = (buf.take i).length + 1 by rw [hlen], List.take_append]
      simp
    have h2 : (buf.take i ++ Param.str s :: buf.drop (i + 1)).drop
        (i + 1 + rest.length) = (buf.drop (i + 1)).drop rest.length := by
      rw [show i + 1 + rest.length = (buf.take i).length + (1 + rest.length)
          by rw [hlen]; omega, List.drop_append]
      rw [show 1 + rest.length = rest.length + 1 by omega, List.drop_succ_cons]
    rw [h1, h2, List.drop_drop]
    simp only [List.length_cons, List.map_cons]
    rw [show i + (rest.length + 1) = i + 1 + rest.length by omega]
    simp [List.append_assoc]

/- When a non-empty rule does not fit the remaining buffer, the inner loop of
RemovePolicies runs off the end of the buffer: an out-of-range write. -/
theorem fillBuf_none : ∀ (rule : List String) (buf : List Param) (i : Nat),
    rule ≠ [] → buf.length < i + rule.length → fillBuf buf i rule = none
  | [], _, _, hne, _ => absurd rfl hne
  | s :: rest, buf, i, _, h => by
    by_cases hi : i < buf.length
    · rw [fillBuf, writeBuf, if_pos hi]
      show fillBuf (buf.set i (Param.str s)) (i + 1) rest = none
      have hrest : rest ≠ [] := by
        intro hr
        subst hr
        simp at h
        omega
      exact fillBuf_none rest _ (i + 1) hrest
        (by rw [List.length_set]; simp at h ⊢; omega)
    · rw [fillBuf, writeBuf, if_neg hi]

/- One iteration of the per-rule loop on a fitting rule over a healthy shard:
the buffer becomes the overlay, the overlay's key is recorded and deleted,
and the loop continues with that shard replaced by some healthy map. -/
theorem removePoliciesLoop_step (e : CachedEnforcer TestBack)
    (buf : List Param) (acc : List String) (rule : List String)
    (rest : List (List String)) (hops : e.ops = testOps)
    (m : List (String × Bool))
    (hsh : e.cache (getShardIdx (getKey (overlayP buf rule)).1) = some m)
    (hfitr : rule.length ≤ buf.length) :
    ∃ m2, e.removePoliciesLoop buf acc (rule :: rest) =
      (setShard e (getShardIdx (getKey (overlayP buf rule)).1)
        (some m2)).removePoliciesLoop (overlayP buf rule)
        (acc ++ [(getKey (overlayP buf rule)).1]) rest := by
  have hfill : fillBuf buf 0 rule = some (overlayP buf rule) := by
    have h0 := fillBuf_eq_overlay rule buf 0 (by simpa using hfitr)
    rw [h0]
    simp [overlayP]
  cases hlk : lookupB m (getKey (overlayP buf rule)).1 with
  | some v =>
    refine ⟨delB m (getKey (overlayP buf rule)).1, ?_⟩
    have hdel : e.ops.delete
        (e.cache (getShardIdx (getKey (overlayP buf rule)).1))
        (getKey (overlayP buf rule)).1 =
        (none, some (delB m (getKey (overlayP buf rule)).1)) := by
      rw [hops, hsh]
      simp [testOps, hlk]
    simp only [CachedEnforcer.removePoliciesLoop, hfill, hdel]
  | none =>
    refine ⟨m, ?_⟩
    have hdel : e.ops.delete
        (e.cache (getShardIdx (getKey (overlayP buf rule)).1))
        (getKey (overlayP buf rule)).1 = (some GoErr.noSuchKey, some m) := by
      rw [hops, hsh]
      simp [testOps, hlk]
    simp only [CachedEnforcer.removePoliciesLoop, hfill, hdel, if_true]

/- Over healthy shards with every rule fitting the buffer, the loop completes
and the keys it deletes are exactly the keys of the successive buffers. -/
theorem removePoliciesLoop_healthy :
    ∀ (rules : List (List String)) (e : CachedEnforcer TestBack)
      (buf : List Param) (acc : List String), e.ops = testOps →
      (∀ j, ∃ m, e.cache j = some m) →
      (∀ r ∈ rules, r.length ≤ buf.length) →
      ∃ e2, e.removePoliciesLoop buf acc rules =
          RPOut.done e2
            (acc ++ (bufsFrom buf rules).map (fun b => (getKey b).1)) ∧
        e2.ops = testOps ∧ (∀ j, ∃ m, e2.cache j = some m) ∧
        e2.enforcer = e.enforcer ∧ e2.enableCache = e.enableCache
  | [], e, buf, acc, hops, hh, _ => by
    refine ⟨e, ?_, hops, hh, rfl, rfl⟩
    simp [CachedEnforcer.removePoliciesLoop, bufsFrom]
  | rule :: rest, e, buf, acc, hops, hh, hfit => by
    have hfitr : rule.length ≤ buf.length := hfit rule (List.mem_cons_self _ _)
    rcases hh (getShardIdx (getKey (overlayP buf rule)).1) with ⟨m, hsh⟩
    rcases removePoliciesLoop_step e buf acc rule rest hops m hsh hfitr
      with ⟨m2, hstep⟩
    have hh2 : ∀ j, ∃ mj,
        (setShard e (getShardIdx (getKey (overlayP buf rule)).1)
          (some m2)).cache j = some mj := by
      intro j
      by_cases hje : j = getShardIdx (getKey (overlayP buf rule)).1
      · rw [hje, setShard_cache_eq]
        exact ⟨m2, rfl⟩
      · rw [setShard_cache_ne _ _ _ _ hje]
        exact hh j
    have hfit2 : ∀ r ∈ rest, r.length ≤ (overlayP buf rule).length := by
      intro r hr
      rw [overlayP_length buf rule hfitr]
      exact hfit r (List.mem_cons_of_mem _ hr)
    rcases removePoliciesLoop_healthy rest _ (overlayP buf rule)
      (acc ++ [(getKey (overlayP buf rule)).1]) (by rw [setShard_ops]; exact hops)
      hh2 hfit2 with ⟨e2, hloop, h2ops, h2h, h2enf, h2en⟩
    refine ⟨e2, ?_, h2ops, h2h, by rw [h2enf, setShard_enforcer],
      by rw [h2en, setShard_enable]⟩
    rw [hstep, hloop]
    congr 1
    simp [bufsFrom, List.append_assoc]

/- When some rule is longer than the buffer and the shards are healthy, the
loop reaches the first oversized rule and panics with an out-of-range
write. -/
theorem removePoliciesLoop_panics :
    ∀ (rules : List (List String)) (e : CachedEnforcer TestBack)
      (buf : List Param) (acc : List String), e.ops = testOps →
      (∀ j, ∃ m, e.cache j = some m) →
      (∃ r ∈ rules, buf.length < r.length) →
      e.removePoliciesLoop buf acc rules = RPOut.panicked
  | [], _, _, _, _, _, hex => by simp at hex
  | rule :: rest, e, buf, acc, hops, hh, hex => by
    by_cases hfitr : rule.length ≤ buf.length
    · rcases hh (getShardIdx (getKey (overlayP buf rule)).1) with ⟨m, hsh⟩
      rcases removePoliciesLoop_step e buf acc rule rest hops m hsh hfitr
        with ⟨m2, hstep⟩
      have hh2 : ∀ j, ∃ mj,
          (setShard e (getShardIdx (getKey (overlayP buf rule)).1)
            (some m2)).cache j = some mj := by
        intro j
        by_cases hje : j = getShardIdx (getKey (overlayP buf rule)).1
        · rw [hje, setShard_cache_eq]
          exact ⟨m2, rfl⟩
        · rw [setShard_cache_ne _ _ _ _ hje]
          exact hh j
      have hex2 : ∃ r ∈ rest, (overlayP buf rule).length < r.length := by
        rcases hex with ⟨r, hr, hlen⟩
        rcases List.mem_cons.1 hr with rfl | hr2
        · omega
        · exact ⟨r, hr2, by rw [overlayP_length buf rule hfitr]; exact hlen⟩
      rw [hstep]
      exact removePoliciesLoop_panics rest _ (overlayP buf rule) _
        (by rw [setShard_ops]; exact hops) hh2 hex2
    · have hrule : rule ≠ [] := by
        intro h0
        subst h0
        simp at hfitr
      have hfN : fillBuf buf 0 rule = none :=
        fillBuf_none rule buf 0 hrule (by omega)
      simp only [CachedEnforcer.removePoliciesLoop, hfN]

/- The i-th buffer of the loop is the i-th rule's parameters followed by a
leftover suffix of string parameters whose length pads the buffer back to its
fixed size. -/
theorem bufsFrom_get :
    ∀ (rules : List (List String)) (buf : List Param) (i : Nat)
      (hi : i < rules.length), allStr buf →
      (∀ r ∈ rules, r.length ≤ buf.length) →
      ∃ pre : List Param, allStr pre ∧
        pre.length = buf.length - (rules.get ⟨i, hi⟩).length ∧
        (bufsFrom buf rules).get? i =
          some ((rules.get ⟨i, hi⟩).map Param.str ++ pre)
  | [], _, i, hi, _, _ => absurd hi (by simp)
  | r :: rest, buf, 0, _, hstr, _ => by
    refine ⟨buf.drop r.length, ?_, ?_, ?_⟩
    · intro p hp
      exact hstr p (List.mem_of_mem_drop hp)
    · simp [List.length_drop]
    · simp [bufsFrom, overlayP]
  | r :: rest, buf, Nat.succ i, hi, hstr, hfit => by
    have hfitr : r.length ≤ buf.length := hfit r (List.mem_cons_self _ _)
    rcases bufsFrom_get rest (overlayP buf r) i (by simpa using hi)
      (overlayP_allStr buf r hstr)
      (fun r2 hr2 => by
        rw [overlayP_length buf r hfitr]
        exact hfit r2 (List.mem_cons_of_mem _ hr2)) with ⟨pre, hp1, hp2, hp3⟩
    refine ⟨pre, hp1, ?_, ?_⟩
    · rw [hp2, overlayP_length buf r hfitr]
      rfl
    · simpa [bufsFrom] using hp3

/- The key built for a shorter later rule is the rule's own key extended by
the leftover parameters' key fragment, hence distinct from the rule's own
key. -/
theorem bufsFrom_key_ne (r0 : List String) (rest : List (List String))
    (i : Nat) (hi : i < rest.length)
    (hfit : ∀ r ∈ rest, r.length ≤ r0.length)
    (hshort : (rest.get ⟨i, hi⟩).length < r0.length) :
    (((bufsFrom (List.replicate r0.length Param.other) (r0 :: rest)).map
      (fun b => (getKey b).1)).get? (i + 1)).isSome = true ∧
    ((bufsFrom (List.replicate r0.length Param.other) (r0 :: rest)).map
      (fun b => (getKey b).1)).get? (i + 1) ≠
      some (getKey ((rest.get ⟨i, hi⟩).map Param.str)).1 := by
  have hb1 : overlayP (List.replicate r0.length Param.other) r0 =
      r0.map Param.str := by
    have hdrop : List.drop r0.length (List.replicate r0.length Param.other) =
        [] := by
      apply List.drop_eq_nil_of_le
      simp
    rw [overlayP, hdrop]
    simp
  have hstr1 : allStr (r0.map Param.str) := by
    intro p hp
    rcases List.mem_map.1 hp with ⟨s, _, rfl⟩
    exact ⟨s, rfl⟩
  have hfit1 : ∀ r ∈ rest, r.length ≤ (r0.map Param.str).length := by
    intro r hr
    rw [List.length_map]
    exact hfit r hr
  rcases bufsFrom_get rest (r0.map Param.str) i hi hstr1 hfit1
    with ⟨pre, hp1, hp2, hp3⟩
  have hidx : ((bufsFrom (List.replicate r0.length Param.other)
      (r0 :: rest)).map (fun b => (getKey b).1)).get? (i + 1) =
      some (getKey ((rest.get ⟨i, hi⟩).map Param.str ++ pre)).1 := by
    rw [bufsFrom, hb1, List.map_cons, List.get?_cons_succ, List.get?_map, hp3]
    rfl
  rw [hidx]
  refine ⟨rfl, ?_⟩
  have hprelen : 0 < pre.length := by
    rw [hp2, List.length_map]
    omega
  rcases pre with _ | ⟨q, pre2⟩
  · simp at hprelen
  have hkeyable1 : ∀ p ∈ (rest.get ⟨i, hi⟩).map Param.str ++ q :: pre2,
      keyable p = true := by
    intro p hp
    rcases List.mem_append.1 hp with h1 | h2
    · rcases List.mem_map.1 h1 with ⟨s, _, rfl⟩
      rfl
    · rcases hp1 p h2 with ⟨s, rfl⟩
      rfl
  have hkeyable2 : ∀ p ∈ (rest.get ⟨i, hi⟩).map Param.str,
      keyable p = true := by
    intro p hp
    rcases List.mem_map.1 hp with ⟨s, _, rfl⟩
    rfl
  intro heq
  have h1 := Option.some.inj heq
  rw [getKey_keyable _ hkeyable1, getKey_keyable _ hkeyable2] at h1
  have h2 : keyCat ((rest.get ⟨i, hi⟩).map Param.str) ++
      keyCat (q :: pre2) = keyCat ((rest.get ⟨i, hi⟩).map Param.str) := by
    rw [← keyCat_append]
    exact h1
  have h3 := congrArg String.length h2
  rw [String.length_append] at h3
  have h4 := keyCat_length_pos q pre2
  omega

/-- Claim C10: RemovePolicies sizes its key-building buffer by the first
rule's length only; with caching enabled and healthy backends, a rules list
with a later rule longer than the first makes the call write past the end of
the buffer (modelled as the out-of-range outcome none, not an error return),
and each later rule shorter than the first gets its cache key built from its
own parameters plus leftover parameters of the buffer left by the preceding
iteration, so the key targeted for deletion at that position differs from the
rule's own key. -/
theorem C10_removePolicies (e : CachedEnforcer TestBack)
    (rules : List (List String)) (hops : e.ops = testOps)
    (hen : e.enableCache ≠ 0) (hh : ∀ j, ∃ m, e.cache j = some m)
    (hne : rules ≠ []) :
    ((∃ r ∈ rules, (rules.headD []).length < r.length) →
      e.RemovePolicies rules = none) ∧
    ((∀ r ∈ rules, r.length ≤ (rules.headD []).length) →
      ∃ out, e.RemovePolicies rules = some out ∧
        out.deletedKeys =
          (bufsFrom (List.replicate (rules.headD []).length Param.other)
            rules).map (fun b => (getKey b).1) ∧
        ∀ i (hi : i < rules.length),
          (rules.get ⟨i, hi⟩).length < (rules.headD []).length →
          (out.deletedKeys.get? i).isSome = true ∧
          out.deletedKeys.get? i ≠
            some (getKey ((rules.get ⟨i, hi⟩).map Param.str)).1) := by
  have hcond : rules.length ≠ 0 ∧ e.enableCache ≠ 0 :=
    ⟨fun h0 => hne (List.length_eq_zero.1 h0), hen⟩
  constructor
  · intro hex
    rw [CachedEnforcer.RemovePolicies, if_pos hcond]
    have hpan := removePoliciesLoop_panics rules e
      (List.replicate (rules.headD []).length Param.other) [] hops hh
      (by simpa using hex)
    simp only [hpan]
  · intro hfit
    have hfit2 : ∀ r ∈ rules,
        r.length ≤ (List.replicate (rules.headD []).length Param.other).length := by
      simpa using hfit
    rcases removePoliciesLoop_healthy rules e
      (List.replicate (rules.headD []).length Param.other) [] hops hh hfit2
      with ⟨e2, hloop, _, _, _, _⟩
    rw [CachedEnforcer.RemovePolicies, if_pos hcond]
    simp only [hloop]
    refine ⟨_, rfl, by simp, ?_⟩
    intro i hi hshort
    rcases rules with _ | ⟨r0, rest⟩
    · exact absurd rfl hne
    cases i with
    | zero =>
      have : r0.length < r0.length := hshort
      omega
    | succ i2 =>
      have hi2 : i2 < rest.length := by simpa using hi
      have hfitr : ∀ r ∈ rest, r.length ≤ r0.length := by
        intro r hr
        exact hfit r (List.mem_cons_of_mem _ hr)
      have hkey := bufsFrom_key_ne r0 rest i2 hi2 hfitr hshort
      exact ⟨hkey.1, hkey.2⟩

theorem C10_witness :
    healthyE.RemovePolicies [["a"], ["b", "c"]] = none := by
  have h := C10_removePolicies healthyE [["a"], ["b", "c"]] rfl (by decide)
    (fun j => ⟨[], rfl⟩) (by decide)
  exact h.1 ⟨["b", "c"], by decide, by decide⟩
